import Mathlib

/-!
# Verification of the phonetics transliterator core

Shallow embedding of `src/tries--with-transliterator.js`:
the trie data model (`CharNode`, per-level character maps), word insertion
(`Trie.addWord`) and lookup (`Trie.findCharNode`), the two cursor-driven
scanning engines (`TrieWordStepper.run`, `TrieOrthographyStepper.run`),
dictionary loading, the phonological rewrite rules (`Rule`, `RuleProcessor`)
and the SSML rendering (`pollyResult`, `escapeSsml`).

JS objects keyed by single characters are modelled as insertion-ordered
association lists (`Level`), matching the insertion-order key semantics of
JS objects; JS `Set` is modelled as an insertion-ordered duplicate-free
list (`phAdd`).  JS `null`/`undefined` fields are modelled with `Option`.
-/

/-- Models the JS regex test `/\p{L}/u.test(c)` on a single character.
Exact on the ASCII range exercised by the dictionaries and claims; the
full Unicode letter tables are out of scope of the embedding. -/
def jsIsLetter (c : Char) : Bool := c.isAlpha

/-- `String.prototype.toLowerCase()`, character-wise (exact on the ASCII
range; implemented over the character list so that concrete runs reduce in
the kernel). -/
def jsToLower (s : String) : String := String.mk (s.data.map Char.toLower)

/-- `String.prototype.split(sep)` for a non-empty literal separator,
implemented with structural fuel recursion so that concrete values reduce in
the kernel; the fuel `length + 1` always suffices. -/
def splitFuel (sep : List Char) : Nat → List Char → List Char → List (List Char)
  | 0, l, acc => [acc ++ l]
  | _ + 1, [], acc => [acc]
  | fuel + 1, c :: rest, acc =>
      if sep ≠ [] ∧ sep.isPrefixOf (c :: rest) then
        acc :: splitFuel sep fuel ((c :: rest).drop sep.length) []
      else
        splitFuel sep fuel rest (acc ++ [c])

/-- `s.split(sep)` on strings. -/
def splitOnL (s sep : String) : List String :=
  (splitFuel sep.data (s.data.length + 1) s.data []).map String.mk

/-- A node of the trie: `_char`, `_phonetics` (a JS `Set`, modelled as an
insertion-ordered duplicate-free list), `_word` (`null` for intermediate
nodes) and `_nextCharsLevel` (a JS object keyed by characters, modelled as
an insertion-ordered association list). -/
inductive CharNode where
  | mk (ch : Char) (phonetics : List String) (word : Option String)
      (next : List (Char × CharNode)) : CharNode

/-- A character level of the trie (`_nextCharsLevel` / `firstCharsLevel`). -/
abbrev Level := List (Char × CharNode)

def CharNode.ch : CharNode → Char
  | .mk c _ _ _ => c

def CharNode.phonetics : CharNode → List String
  | .mk _ p _ _ => p

def CharNode.word : CharNode → Option String
  | .mk _ _ w _ => w

def CharNode.next : CharNode → Level
  | .mk _ _ _ n => n

/-- `new CharNode(char)`: empty phonetics set, `_word = null`, no children. -/
def newNode (c : Char) : CharNode := .mk c [] none []

/-- Key lookup in a JS object keyed by characters (`level[char]`, `char in level`). -/
def lvLookup : Level → Char → Option CharNode
  | [], _ => none
  | (k, n) :: r, c => if k = c then some n else lvLookup r c

/-- Key assignment in a JS object keyed by characters (`level[char] = node`):
replaces in place if the key exists, otherwise appends (JS objects keep
insertion order of keys). -/
def lvUpdate : Level → Char → CharNode → Level
  | [], c, n => [(c, n)]
  | (k, m) :: r, c, n => if k = c then (c, n) :: r else (k, m) :: lvUpdate r c n

/-- `Set.prototype.add`: appends only if absent, keeping insertion order. -/
def phAdd (l : List String) (q : String) : List String :=
  if q ∈ l then l else l ++ [q]

/-- Adding each phonetic option in turn (`for (const phoneticOption of phoneticOptions)`). -/
def phAddAll (l : List String) (qs : List String) : List String :=
  qs.foldl phAdd l

/-- The walk of `Trie.addWord` over the character array: follows or creates a
node per character, and at the final character adds the phonetic options and
sets the word.  The JS `do … while` presupposes a non-empty word (an empty
word would look up the key `"undefined"`); the `[]` case is never reached
from `addWord`'s callers and leaves the level unchanged. -/
def insertW : Level → List Char → String → List String → Level
  | lvl, [], _, _ => lvl
  | lvl, [c], w, ps =>
      let n0 := (lvLookup lvl c).getD (newNode c)
      lvUpdate lvl c (.mk n0.ch (phAddAll n0.phonetics ps) (some w) n0.next)
  | lvl, c :: c2 :: cs, w, ps =>
      let n0 := (lvLookup lvl c).getD (newNode c)
      lvUpdate lvl c (.mk n0.ch n0.phonetics n0.word (insertW n0.next (c2 :: cs) w ps))

/-- `Trie.addWord(word, phonetic)` on the currently selected dictionary level:
splits the phonetic options on `', '` and inserts along the word's characters. -/
def addWordL (lvl : Level) (word phonetic : String) : Level :=
  insertW lvl word.toList word (splitOnL phonetic ", ")

/-- The walk of `Trie.findCharNode`: shift a character, return `null` if it is
absent at the current level, return the current node when the characters are
exhausted, else descend.  Note the source returns the node reached at the
final character whether or not it terminates a word. -/
def findW : Level → List Char → Option CharNode
  | _, [] => none
  | lvl, [c] => lvLookup lvl c
  | lvl, c :: c2 :: cs =>
      match lvLookup lvl c with
      | none => none
      | some n => findW n.next (c2 :: cs)

/-- `Trie.findCharNode(word)` on a dictionary level. -/
def findCharNodeL (lvl : Level) (word : String) : Option CharNode :=
  findW lvl word.toList

/-- A sequence of `addWord` calls (the insertions performed while loading a
dictionary), applied left to right. -/
def applyAdds (lvl : Level) (ops : List (String × String)) : Level :=
  ops.foldl (fun l op => addWordL l op.1 op.2) lvl

/-- All phonetic variants ever inserted for `w` by a sequence of `addWord`
calls: every comma-separated option of every insertion whose word is `w`. -/
def variants (w : String) (ops : List (String × String)) : List String :=
  (ops.filter (fun op => op.1 = w)).flatMap (fun op => splitOnL op.2 ", ")

/-! ## Basic lemmas about levels and phonetics sets -/

theorem lvLookup_update_self (lvl : Level) (c : Char) (n : CharNode) :
    lvLookup (lvUpdate lvl c n) c = some n := by
  induction lvl with
  | nil => simp [lvUpdate, lvLookup]
  | cons kv r ih =>
      obtain ⟨k, m⟩ := kv
      by_cases h : k = c <;> simp [lvUpdate, lvLookup, h, ih]

theorem lvLookup_update_ne (lvl : Level) {c c' : Char} (n : CharNode)
    (h : c' ≠ c) : lvLookup (lvUpdate lvl c n) c' = lvLookup lvl c' := by
  induction lvl with
  | nil => simp [lvUpdate, lvLookup, Ne.symm h]
  | cons kv r ih =>
      obtain ⟨k, m⟩ := kv
      by_cases hk : k = c
      · subst hk
        simp [lvUpdate, lvLookup, Ne.symm h, h]
      · by_cases hk' : k = c' <;> simp [lvUpdate, lvLookup, hk, hk', h, ih]

theorem mem_phAdd_of_mem {l : List String} {x : String} (q : String)
    (h : x ∈ l) : x ∈ phAdd l q := by
  unfold phAdd
  split <;> simp [h]

theorem mem_phAddAll_of_mem {x : String} :
    ∀ (qs l : List String), x ∈ l → x ∈ phAddAll l qs := by
  intro qs
  induction qs with
  | nil => intro l h; simpa [phAddAll]
  | cons q qs ih =>
      intro l h
      simpa [phAddAll] using ih (phAdd l q) (mem_phAdd_of_mem q h)

theorem self_mem_phAdd (l : List String) (q : String) : q ∈ phAdd l q := by
  unfold phAdd
  split <;> simp_all

theorem mem_phAddAll_of_mem_right {x : String} :
    ∀ (qs l : List String), x ∈ qs → x ∈ phAddAll l qs := by
  intro qs
  induction qs with
  | nil => intro l h; cases h
  | cons q qs ih =>
      intro l h
      rcases List.mem_cons.mp h with h1 | h1
      · subst h1
        simpa [phAddAll] using mem_phAddAll_of_mem qs (phAdd l x) (self_mem_phAdd l x)
      · simpa [phAddAll] using ih (phAdd l q) h1

theorem findW_nil_level : ∀ cs : List Char, findW [] cs = none
  | [] => rfl
  | [_] => rfl
  | _ :: _ :: _ => rfl

/-! ## Characterising `findCharNode` after `addWord` -/

/-- The phonetics already stored at the end of path `cs` (`[]` when the path
does not yet end at a node: a freshly created node starts with an empty set). -/
def oldPh (lvl : Level) (cs : List Char) : List String :=
  match findW lvl cs with
  | some m => m.phonetics
  | none => []

/-- The observable content (word, phonetics) of the node at path `cs`. -/
def obsW (lvl : Level) (cs : List Char) : Option (Option String × List String) :=
  (findW lvl cs).map (fun n => (n.word, n.phonetics))

theorem lvLookup_insert_head_ne {c c' : Char} (hd : c' ≠ c) :
    ∀ (rest : List Char) (lvl : Level) (w : String) (ps : List String),
      lvLookup (insertW lvl (c' :: rest) w ps) c = lvLookup lvl c := by
  intro rest lvl w ps
  cases rest <;>
    simpa only [insertW] using lvLookup_update_ne lvl _ (Ne.symm hd)

theorem findW_cons (lvl : Level) (c c2 : Char) (cs : List Char) :
    findW lvl (c :: c2 :: cs) =
      match lvLookup lvl c with
      | none => none
      | some n => findW n.next (c2 :: cs) := rfl

theorem obsW_cons_some {lvl : Level} {c : Char} {m : CharNode}
    (h : lvLookup lvl c = some m) (c2 : Char) (cs : List Char) :
    obsW lvl (c :: c2 :: cs) = obsW m.next (c2 :: cs) := by
  simp [obsW, findW_cons, h]

theorem obsW_insert_deep {lvl : Level} {c : Char} {m : CharNode}
    (h : lvLookup lvl c = some m) (d : Char) (ds : List Char)
    (c2 : Char) (cs : List Char) (w : String) (ps : List String) :
    obsW (insertW lvl (c :: d :: ds) w ps) (c :: c2 :: cs) =
      obsW (insertW m.next (d :: ds) w ps) (c2 :: cs) := by
  simp [insertW, h, obsW, findW_cons, lvLookup_update_self, CharNode.next]

theorem obsW_insert_deep_none {lvl : Level} {c : Char}
    (h : lvLookup lvl c = none) (d : Char) (ds : List Char)
    (c2 : Char) (cs : List Char) (w : String) (ps : List String) :
    obsW (insertW lvl (c :: d :: ds) w ps) (c :: c2 :: cs) =
      obsW (insertW [] (d :: ds) w ps) (c2 :: cs) := by
  simp [insertW, h, obsW, findW_cons, lvLookup_update_self, newNode, CharNode.next]


/-- After `addWord` along `cs`, the node found at `cs` carries the inserted
word, and its phonetics are the previously stored ones extended with every
inserted option. -/
theorem find_insert_self :
    ∀ (cs : List Char) (lvl : Level) (w : String) (ps : List String), cs ≠ [] →
      ∃ n, findW (insertW lvl cs w ps) cs = some n ∧ n.word = some w ∧
        n.phonetics = phAddAll (oldPh lvl cs) ps := by
  intro cs
  induction cs with
  | nil => intro lvl w ps h; exact absurd rfl h
  | cons c cs2 ih =>
      intro lvl w ps _
      cases cs2 with
      | nil =>
          refine ⟨CharNode.mk ((lvLookup lvl c).getD (newNode c)).ch
              (phAddAll ((lvLookup lvl c).getD (newNode c)).phonetics ps) (some w)
              ((lvLookup lvl c).getD (newNode c)).next, ?_, rfl, ?_⟩
          · simp only [insertW, findW]
            exact lvLookup_update_self lvl c _
          · cases h0 : lvLookup lvl c <;>
              simp [CharNode.phonetics, oldPh, findW, h0, newNode]
      | cons c2 cs3 =>
          cases h0 : lvLookup lvl c with
          | some m =>
              obtain ⟨n, hn, hw, hp⟩ := ih m.next w ps (by simp)
              refine ⟨n, ?_, hw, ?_⟩
              · simp only [insertW, h0, Option.getD_some, findW_cons,
                  lvLookup_update_self, CharNode.next]
                exact hn
              · rw [hp]
                have heq : oldPh lvl (c :: c2 :: cs3) = oldPh m.next (c2 :: cs3) := by
                  simp [oldPh, findW_cons, h0]
                rw [heq]
          | none =>
              obtain ⟨n, hn, hw, hp⟩ := ih [] w ps (by simp)
              refine ⟨n, ?_, hw, ?_⟩
              · simp only [insertW, h0, Option.getD_none, newNode, findW_cons,
                  lvLookup_update_self, CharNode.next]
                exact hn
              · rw [hp]
                have h1 : oldPh lvl (c :: c2 :: cs3) = [] := by
                  simp [oldPh, findW_cons, h0]
                have h2 : oldPh [] (c2 :: cs3) = [] := by
                  simp [oldPh, findW_nil_level]
                rw [h1, h2]

/-- Inserting along a different path `cs'` either leaves the observation at
`cs` unchanged, or turns a missing node into a freshly created intermediate
node carrying no word and no phonetics. -/
theorem obs_insert_ne :
    ∀ (cs cs' : List Char) (lvl : Level) (w : String) (ps : List String), cs ≠ cs' →
      obsW (insertW lvl cs' w ps) cs = obsW lvl cs ∨
        (findW lvl cs = none ∧ obsW (insertW lvl cs' w ps) cs = some (none, [])) := by
  intro cs
  induction cs with
  | nil =>
      intro cs' lvl w ps _
      left
      cases cs' with
      | nil => rfl
      | cons c' rest => cases rest <;> simp [obsW, findW]
  | cons c cs2 ih =>
      intro cs' lvl w ps hne
      cases cs2 with
      | nil =>
          cases cs' with
          | nil => left; rfl
          | cons c' cs2' =>
              by_cases hc : c' = c
              · subst hc
                cases cs2' with
                | nil => exact absurd rfl hne
                | cons c2' cs3' =>
                    cases h0 : lvLookup lvl c' with
                    | some m =>
                        left
                        obtain ⟨mc, mp, mw, mn⟩ := m
                        simp [obsW, findW, insertW, h0, lvLookup_update_self,
                          CharNode.ch, CharNode.word, CharNode.phonetics, CharNode.next]
                    | none =>
                        right
                        constructor
                        · simp [findW, h0]
                        · simp [obsW, findW, insertW, h0, lvLookup_update_self,
                            newNode, CharNode.word, CharNode.phonetics]
              · left
                simp [obsW, findW, lvLookup_insert_head_ne hc]
      | cons c2 cs3 =>
          cases cs' with
          | nil => left; rfl
          | cons c' cs2' =>
              by_cases hc : c' = c
              · subst hc
                cases cs2' with
                | nil =>
                    cases h0 : lvLookup lvl c' with
                    | some m =>
                        left
                        obtain ⟨mc, mp, mw, mn⟩ := m
                        simp [obsW, findW_cons, insertW, h0, lvLookup_update_self,
                          CharNode.ch, CharNode.word, CharNode.phonetics, CharNode.next]
                    | none =>
                        left
                        simp [obsW, findW_cons, insertW, h0, lvLookup_update_self,
                          newNode, CharNode.next, findW_nil_level]
                | cons c2' cs3' =>
                    have hne2 : (c2 :: cs3) ≠ (c2' :: cs3') := by
                      intro hh; exact hne (by rw [hh])
                    cases h0 : lvLookup lvl c' with
                    | some m =>
                        rcases ih (c2' :: cs3') m.next w ps hne2 with h | ⟨h1, h2⟩
                        · left
                          rw [obsW_insert_deep h0, h, obsW_cons_some h0]
                        · right
                          constructor
                          · simp [findW_cons, h0, h1]
                          · rw [obsW_insert_deep h0]
                            exact h2
                    | none =>
                        rcases ih (c2' :: cs3') [] w ps hne2 with h | ⟨h1, h2⟩
                        · left
                          rw [obsW_insert_deep_none h0, h]
                          simp [obsW, findW_nil_level, findW_cons, h0]
                        · right
                          constructor
                          · simp [findW_cons, h0]
                          · rw [obsW_insert_deep_none h0]
                            exact h2
              · left
                simp [obsW, findW_cons, lvLookup_insert_head_ne hc]

theorem string_toList_inj {s t : String} (h : s.toList = t.toList) : s = t := by
  cases s; cases t
  simp only [String.toList] at h
  rw [h]

theorem string_toList_ne_nil {s : String} (h : s ≠ "") : s.toList ≠ [] := by
  intro hc
  apply h
  apply string_toList_inj
  rw [hc]
  rfl

theorem applyAdds_append (lvl : Level) (ops : List (String × String))
    (op : String × String) :
    applyAdds lvl (ops ++ [op]) = addWordL (applyAdds lvl ops) op.1 op.2 := by
  simp [applyAdds, List.foldl_append]

theorem variants_append (w : String) (ops : List (String × String))
    (op : String × String) :
    variants w (ops ++ [op]) =
      variants w ops ++ (if op.1 = w then splitOnL op.2 ", " else []) := by
  by_cases h : op.1 = w <;> simp [variants, List.filter_append, h]

theorem of_mem_variants {q w : String} {ops : List (String × String)}
    (h : q ∈ variants w ops) : ∃ p, (w, p) ∈ ops ∧ q ∈ splitOnL p ", " := by
  unfold variants at h
  rw [List.mem_flatMap] at h
  obtain ⟨⟨a, b⟩, hop, hq⟩ := h
  rw [List.mem_filter] at hop
  obtain ⟨h1, h2⟩ := hop
  have ha : a = w := by simpa using h2
  subst ha
  exact ⟨b, h1, hq⟩

/-- C3: for every non-empty word `w` inserted into the selected dictionary
by a sequence of `addWord` calls (possibly repeatedly, each with one or more
comma-separated phonetic options), `findCharNode(w)` returns a node whose
`word` equals `w` and whose phonetics contain every variant ever inserted
for `w`: repeated insertion accumulates phonetic options. -/
theorem C3_repeated_addWord_accumulates :
    ∀ (ops : List (String × String)) (w p : String),
      (w, p) ∈ ops → w ≠ "" →
      ∃ n, findCharNodeL (applyAdds [] ops) w = some n ∧ n.word = some w ∧
        ∀ q ∈ variants w ops, q ∈ n.phonetics := by
  intro ops
  induction ops using List.reverseRecOn with
  | nil => intro w p h; cases h
  | append_singleton ops op ih =>
      intro w p hmem hw0
      obtain ⟨w', p'⟩ := op
      by_cases hww : w' = w
      · subst hww
        obtain ⟨n, hn, hword, hph⟩ :=
          find_insert_self w'.toList (applyAdds [] ops) w' (splitOnL p' ", ")
            (string_toList_ne_nil hw0)
        refine ⟨n, ?_, hword, ?_⟩
        · simp only [applyAdds_append, addWordL, findCharNodeL]
          exact hn
        · intro q hq
          rw [variants_append] at hq
          simp only [if_pos] at hq
          rcases List.mem_append.mp hq with hq | hq
          · rw [hph]
            by_cases hex : ∃ p0, (w', p0) ∈ ops
            · obtain ⟨p0, hp0⟩ := hex
              obtain ⟨m, hm, hmw, hmph⟩ := ih w' p0 hp0 hw0
              simp only [findCharNodeL] at hm
              have heq : oldPh (applyAdds [] ops) w'.toList = m.phonetics := by
                unfold oldPh
                rw [hm]
              rw [heq]
              exact mem_phAddAll_of_mem _ _ (hmph q hq)
            · exfalso
              obtain ⟨p0, hp0, _⟩ := of_mem_variants hq
              exact hex ⟨p0, hp0⟩
          · rw [hph]
            exact mem_phAddAll_of_mem_right _ _ hq
      · have hmem' : (w, p) ∈ ops := by
          rcases List.mem_append.mp hmem with h | h
          · exact h
          · exfalso
            simp only [List.mem_singleton, Prod.mk.injEq] at h
            exact hww h.1.symm
        obtain ⟨n, hn, hword, hph⟩ := ih w p hmem' hw0
        have hne : w.toList ≠ w'.toList := fun hh => hww (string_toList_inj hh).symm
        rcases obs_insert_ne w.toList w'.toList (applyAdds [] ops) w'
            (splitOnL p' ", ") hne with h | ⟨h1, h2⟩
        · simp only [findCharNodeL] at hn
          have hobs : obsW (insertW (applyAdds [] ops) w'.toList w'
              (splitOnL p' ", ")) w.toList = some (n.word, n.phonetics) := by
            rw [h]
            simp only [obsW]
            rw [hn, Option.map_some']
          rw [obsW, Option.map_eq_some'] at hobs
          obtain ⟨m, hm, hme⟩ := hobs
          simp only [Prod.mk.injEq] at hme
          refine ⟨m, ?_, ?_, ?_⟩
          · simp only [applyAdds_append, addWordL, findCharNodeL]
            exact hm
          · rw [hme.1, hword]
          · intro q hq
            rw [variants_append] at hq
            rw [if_neg hww, List.append_nil] at hq
            rw [hme.2]
            exact hph q hq
        · simp only [findCharNodeL] at hn
          rw [hn] at h1
          cases h1

theorem C3_witness :
    ∃ n, findCharNodeL (applyAdds [] [("cat", "kat, kaet"), ("cat", "kit")]) "cat"
        = some n ∧ n.word = some "cat" ∧
      ∀ q ∈ variants "cat" [("cat", "kat, kaet"), ("cat", "kit")], q ∈ n.phonetics :=
  C3_repeated_addWord_accumulates [("cat", "kat, kaet"), ("cat", "kit")] "cat"
    "kat, kaet" (by decide) (by decide)

/-- C2 counterexample: `"cat"` is a non-empty strict prefix of the single
inserted word `"category"` and was never inserted itself, yet
`findCharNode("cat")` does NOT return not-found: it returns the partial node
reached at the final character (refuting the claim that the walk returns
null at the final character of a strict prefix). -/
theorem C2_counterexample :
    "cat".toList ≠ [] ∧
    "cat".toList.isPrefixOf "category".toList = true ∧
    "cat" ≠ "category" ∧
    findCharNodeL (applyAdds [] [("category", "kataegari")]) "cat" ≠ none := by
  refine ⟨by decide, by decide, by decide, ?_⟩
  intro hcontra
  have : (findCharNodeL (applyAdds [] [("category", "kataegari")]) "cat").isSome
      = true := by decide
  rw [hcontra] at this
  cases this

/-- Helper for the amended C2: a word never inserted by the `addWord`
sequence can never acquire a set `word` field — whatever node (if any) the
walk reaches at its path has `word = null`. -/
theorem findW_not_inserted_word_none :
    ∀ (ops : List (String × String)) (w : String) (n : CharNode),
      (∀ p, (w, p) ∉ ops) →
      findCharNodeL (applyAdds [] ops) w = some n →
      n.word = none := by
  intro ops
  induction ops using List.reverseRecOn with
  | nil =>
      intro w n _ hfind
      simp only [applyAdds, List.foldl_nil, findCharNodeL] at hfind
      rw [findW_nil_level] at hfind
      cases hfind
  | append_singleton ops op ih =>
      intro w n hnot hfind
      obtain ⟨w', p'⟩ := op
      have hww : w ≠ w' := by
        intro he
        exact hnot p' (by rw [he]; exact List.mem_append_right _ (by simp))
      have hne : w.toList ≠ w'.toList := fun hh => hww (string_toList_inj hh)
      simp only [applyAdds_append, addWordL, findCharNodeL] at hfind
      rcases obs_insert_ne w.toList w'.toList (applyAdds [] ops) w'
          (splitOnL p' ", ") hne with h | ⟨h1, h2⟩
      · have hobs : obsW (applyAdds [] ops) w.toList = some (n.word, n.phonetics) := by
          rw [← h]
          simp only [obsW]
          rw [hfind, Option.map_some']
        rw [obsW, Option.map_eq_some'] at hobs
        obtain ⟨m, hm, hme⟩ := hobs
        simp only [Prod.mk.injEq] at hme
        have := ih w m (fun p hp => hnot p (List.mem_append_left _ hp)) hm
        rw [← hme.1, this]
      · rw [obsW] at h2
        rw [hfind, Option.map_some'] at h2
        simp only [Option.some.injEq, Prod.mk.injEq] at h2
        exact h2.1

/-- Inserting a word along `cs ++ rest` (with `rest` non-empty) creates or
keeps a node at every non-empty strict-prefix path `cs`: the walk of
`findCharNode` succeeds there afterwards. -/
theorem find_insert_strict_prefix :
    ∀ (cs rest : List Char) (lvl : Level) (w : String) (ps : List String),
      cs ≠ [] → rest ≠ [] →
      ∃ n, findW (insertW lvl (cs ++ rest) w ps) cs = some n := by
  intro cs
  induction cs with
  | nil => intro rest lvl w ps h; exact absurd rfl h
  | cons c cs2 ih =>
      intro rest lvl w ps _ hrest
      cases cs2 with
      | nil =>
          cases rest with
          | nil => exact absurd rfl hrest
          | cons r rs =>
              exact ⟨_, by
                simp only [List.cons_append, List.nil_append, insertW, findW]
                exact lvLookup_update_self lvl c _⟩
      | cons c2 cs3 =>
          obtain ⟨n, hn⟩ := ih rest ((lvLookup lvl c).getD (newNode c)).next w ps
            (by simp) hrest
          refine ⟨n, ?_⟩
          simp only [List.cons_append, insertW, findW_cons, lvLookup_update_self,
            CharNode.next]
          exact hn

/-- C2 (amended): for every non-empty word `w` that is a strict prefix of
some inserted dictionary word but was never itself inserted via `addWord`,
`findCharNode(w)` does NOT return not-found: it returns the partial node
reached at the final character, and that node's `word` field is null — the
walk yields the non-terminal node rather than the null claimed by the spec,
while still never reporting `w` as a complete dictionary entry. -/
theorem C2_amended_partial_node :
    ∀ (ops : List (String × String)) (w w' p' : String),
      (w', p') ∈ ops →
      w.toList.isPrefixOf w'.toList = true →
      w ≠ w' →
      w ≠ "" →
      (∀ p, (w, p) ∉ ops) →
      ∃ n, findCharNodeL (applyAdds [] ops) w = some n ∧ n.word = none := by
  intro ops
  induction ops using List.reverseRecOn with
  | nil => intro w w' p' hmem; cases hmem
  | append_singleton ops op ih =>
      intro w w' p' hmem hpre hne0 hw0 hnot
      obtain ⟨u, q⟩ := op
      have hwu : w ≠ u := by
        intro he
        exact hnot q (by rw [he]; exact List.mem_append_right _ (by simp))
      have hcs : w.toList ≠ u.toList := fun hh => hwu (string_toList_inj hh)
      have hnot' : ∀ p, (w, p) ∉ ops := fun p hp =>
        hnot p (List.mem_append_left _ hp)
      rcases List.mem_append.mp hmem with hmem' | hlast
      · obtain ⟨n, hn, hword⟩ := ih w w' p' hmem' hpre hne0 hw0 hnot'
        simp only [findCharNodeL] at hn
        rcases obs_insert_ne w.toList u.toList (applyAdds [] ops) u
            (splitOnL q ", ") hcs with h | ⟨h1, h2⟩
        · have hobs : obsW (insertW (applyAdds [] ops) u.toList u
              (splitOnL q ", ")) w.toList = some (n.word, n.phonetics) := by
            rw [h]
            simp only [obsW]
            rw [hn, Option.map_some']
          rw [obsW, Option.map_eq_some'] at hobs
          obtain ⟨m, hm, hme⟩ := hobs
          simp only [Prod.mk.injEq] at hme
          refine ⟨m, ?_, ?_⟩
          · simp only [applyAdds_append, addWordL, findCharNodeL]
            exact hm
          · rw [hme.1, hword]
        · rw [hn] at h1
          cases h1
      · have huw : u = w' := by
          simp only [List.mem_singleton, Prod.mk.injEq] at hlast
          exact hlast.1.symm
        subst huw
        obtain ⟨rest, hrest⟩ := List.isPrefixOf_iff_prefix.mp hpre
        have hrne : rest ≠ [] := by
          intro hr
          apply hne0
          apply string_toList_inj
          rw [← hrest, hr, List.append_nil]
        obtain ⟨n, hn⟩ := find_insert_strict_prefix w.toList rest
          (applyAdds [] ops) u (splitOnL q ", ") (string_toList_ne_nil hw0) hrne
        rw [hrest] at hn
        refine ⟨n, ?_, ?_⟩
        · simp only [applyAdds_append, addWordL, findCharNodeL]
          exact hn
        · rcases obs_insert_ne w.toList u.toList (applyAdds [] ops) u
              (splitOnL q ", ") hcs with h | ⟨h1, h2⟩
          · have hobs : obsW (applyAdds [] ops) w.toList
                = some (n.word, n.phonetics) := by
              rw [← h]
              simp only [obsW]
              rw [hn, Option.map_some']
            rw [obsW, Option.map_eq_some'] at hobs
            obtain ⟨m, hm, hme⟩ := hobs
            simp only [Prod.mk.injEq] at hme
            have hmw := findW_not_inserted_word_none ops w m hnot' hm
            rw [← hme.1, hmw]
          · rw [obsW] at h2
            rw [hn, Option.map_some'] at h2
            simp only [Option.some.injEq, Prod.mk.injEq] at h2
            exact h2.1

theorem C2_witness :
    ∃ n, findCharNodeL (applyAdds [] [("category", "kataegari")]) "cat"
        = some n ∧ n.word = none :=
  C2_amended_partial_node [("category", "kataegari")] "cat" "category"
    "kataegari" (by decide) (by decide) (by decide) (by decide)
    (by
      intro p hp
      have h := List.mem_singleton.mp hp
      have h2 : "cat" = "category" := congrArg Prod.fst h
      exact absurd h2 (by decide))

/-! ## Rules (`Rule`, `RuleProcessor`) -/

theorem string_data_append (s t : String) : (s ++ t).data = s.data ++ t.data := rfl

/-- Replace the first `'#'` by an anchor character: the constructor's
`.replace(/#/u, '^')` / `.replace(/#/u, '$')`, a non-global regex replace. -/
def replaceFirstHash (anchor : Char) : List Char → List Char
  | [] => []
  | c :: r => if c = '#' then anchor :: r else c :: replaceFirstHash anchor r

/-- Strip the first `'0'`: the constructor's
`this._replacement.replace(/0/u, '')`, a non-global replace that removes the
deletion marker once. -/
def removeFirstZero : List Char → List Char
  | [] => []
  | c :: r => if c = '0' then r else c :: removeFirstZero r

/-- A compiled rewrite rule.  `pre`/`suf` are `Option` because the JS fields
stay `undefined` when the context split found no `_` part and the
character-group loop never ran. -/
structure Rule where
  toReplace : String
  replacement : String
  pre : Option String
  suf : Option String

/-- JS template-literal interpolation as used when building the rule's
regex source: `undefined` renders as the text `"undefined"`. -/
def jsStr : Option String → String
  | some s => s
  | none => "undefined"

/-- One iteration of the character-group substitution loop of the `Rule`
constructor on the prefix or suffix: a falsy field (undefined or empty)
becomes `''`; otherwise every occurrence of the literal group key is
replaced by its expansion (`new RegExp(key, 'gu')` — the keys `::name::`
contain no metacharacters) and the first `'#'` becomes the anchor. -/
def groupStep (kv : String × String) (anchor : Char) (o : Option String) :
    Option String :=
  match o with
  | none => some ""
  | some s =>
      if s = "" then some ""
      else some (String.mk (replaceFirstHash anchor ((s.replace kv.1 kv.2).toList)))

/-- The body of the `Rule` constructor after the three raw splits of the rule
line: runs the character-group loop over prefix and suffix and strips the
first `'0'` deletion marker from the replacement. -/
def mkRuleParts (toRep repl : String) (pre suf : Option String)
    (charGroups : List (String × String)) : Rule :=
  let ps := charGroups.foldl
    (fun (ps : Option String × Option String) kv =>
      (groupStep kv '^' ps.1, groupStep kv '$' ps.2)) (pre, suf)
  Rule.mk toRep (String.mk (removeFirstZero repl.toList)) ps.1 ps.2

/-- The global contextual replace
`word.replace(/(pre)(toReplace)(suf)/ug, (m, a, _b, c) => a + repl + c)`,
modelled for the literal-text pattern fragment the rule files produce: a
match is a literal occurrence of `pre ++ toReplace ++ suf`, scanned left to
right without overlap, and the captures `a`/`c` are the literal prefix and
suffix texts.  (A regex with an empty source never arises from a matched
rule line, so the empty pattern is treated as matching nowhere.) -/
def ruleScan (pat repl : List Char) : List Char → List Char
  | [] => []
  | c :: rest =>
      if h : pat.isPrefixOf (c :: rest) ∧ pat ≠ [] then
        repl ++ ruleScan pat repl ((c :: rest).drop pat.length)
      else
        c :: ruleScan pat repl rest
termination_by l => l.length
decreasing_by
  · have hlen : 0 < pat.length := List.length_pos.mpr h.2
    simp only [List.length_drop, List.length_cons]
    omega
  · simp

/-- `Rule.apply(word)`: build the `(pre)(toReplace)(suf)` pattern from the
rule's fields (JS string interpolation of the fields into the regex source)
and perform the global contextual replace. -/
def Rule.apply (r : Rule) (word : String) : String :=
  String.mk (ruleScan ((jsStr r.pre ++ r.toReplace ++ jsStr r.suf).toList)
    ((jsStr r.pre ++ r.replacement ++ jsStr r.suf).toList) word.toList)

/-- `RuleProcessor`: the `_rules` list loaded from a rule file. -/
structure RuleProcessor where
  rules : List Rule

/-- `RuleProcessor.process(word)`: returns the word unchanged when no rules
are loaded, otherwise `reduce((w, r) => r.apply(w), word)`. -/
def RuleProcessor.process (rp : RuleProcessor) (word : String) : String :=
  if rp.rules.isEmpty then word
  else rp.rules.foldl (fun w r => r.apply w) word

/-- The spec's description of rule application: a left-to-right pipeline,
each rule consuming the previous rule's output, `Rn.apply (… (R1.apply w))`. -/
def pipelineSpec : List Rule → String → String
  | [], w => w
  | r :: rs, w => pipelineSpec rs (r.apply w)

/-- C6: `RuleProcessor.process` equals the left-to-right pipeline composition
of its loaded rules — in particular `process` with rules `[R1, R2]` is
`R2.apply (R1.apply w)` — and an empty rule list returns the word unchanged,
never an error. -/
theorem C6_rule_pipeline :
    ∀ (rs : List Rule) (R1 R2 : Rule) (w : String),
      RuleProcessor.process (RuleProcessor.mk rs) w = pipelineSpec rs w ∧
      RuleProcessor.process (RuleProcessor.mk []) w = w ∧
      RuleProcessor.process (RuleProcessor.mk [R1, R2]) w
        = R2.apply (R1.apply w) := by
  have key : ∀ (rs : List Rule) (w : String),
      List.foldl (fun w r => Rule.apply r w) w rs = pipelineSpec rs w := by
    intro rs
    induction rs with
    | nil => intro w; rfl
    | cons r rs ih => intro w; simp [pipelineSpec, List.foldl_cons, ih]
  intro rs R1 R2 w
  refine ⟨?_, rfl, rfl⟩
  cases rs with
  | nil => rfl
  | cons r rs => simp [RuleProcessor.process, List.isEmpty, key]

theorem ruleScan_no_occurrence {pat repl : List Char} :
    ∀ (l : List Char), (∀ i, i < l.length → ¬ pat.isPrefixOf (l.drop i)) →
      ruleScan pat repl l = l := by
  intro l
  induction l with
  | nil => intro _; rw [ruleScan]
  | cons c rest ih =>
      intro h
      have h0 : ¬ pat.isPrefixOf (c :: rest) := by
        simpa using h 0 (by simp)
      rw [ruleScan, dif_neg (fun hc => h0 hc.1)]
      congr 1
      apply ih
      intro i hi
      have := h (i + 1) (by simpa using Nat.succ_lt_succ hi)
      simpa [List.drop_succ_cons] using this

theorem ruleScan_skip {pat repl : List Char} :
    ∀ (p l : List Char), (∀ i, i < p.length → ¬ pat.isPrefixOf ((p ++ l).drop i)) →
      ruleScan pat repl (p ++ l) = p ++ ruleScan pat repl l := by
  intro p
  induction p with
  | nil => intro l _; simp
  | cons c p' ih =>
      intro l h
      have h0 : ¬ pat.isPrefixOf (c :: (p' ++ l)) := by
        simpa using h 0 (by simp)
      show ruleScan pat repl (c :: (p' ++ l)) = _
      rw [ruleScan, dif_neg (fun hc => h0 hc.1)]
      rw [ih l (fun i hi => by
        have := h (i + 1) (by simpa using Nat.succ_lt_succ hi)
        simpa [List.drop_succ_cons] using this)]
      rfl

theorem ruleScan_head {pat repl : List Char} (hp : pat ≠ []) (q : List Char) :
    ruleScan pat repl (pat ++ q) = repl ++ ruleScan pat repl q := by
  cases hpat : pat with
  | nil => exact absurd hpat hp
  | cons pc pr =>
      show ruleScan (pc :: pr) repl (pc :: (pr ++ q)) = _
      rw [ruleScan, dif_pos ?_]
      · rw [show pc :: (pr ++ q) = (pc :: pr) ++ q from rfl, List.drop_left]
      · constructor
        · rw [show pc :: (pr ++ q) = (pc :: pr) ++ q from rfl]
          rw [List.isPrefixOf_iff_prefix]
          exact List.prefix_append _ _
        · simp

/-- C7: a rule whose raw replacement text is the literal `"0"` compiles to
an empty replacement (the deletion marker is stripped), and applying it to a
word containing a match of its contextual pattern deletes the matched
`toReplace` substring entirely while keeping the prefix context, the suffix
context and the surrounding text intact.  The hypotheses locate the single
match: no position inside `p` starts a match and no match occurs in `q`. -/
theorem C7_deletion_marker (toRep pre suf : String) (p q : List Char)
    (hp : ∀ i, i < p.length →
      ¬ (pre.toList ++ toRep.toList ++ suf.toList).isPrefixOf
        ((p ++ (pre.toList ++ toRep.toList ++ suf.toList) ++ q).drop i))
    (hq : ∀ i, i < q.length →
      ¬ (pre.toList ++ toRep.toList ++ suf.toList).isPrefixOf (q.drop i))
    (hpat : (pre.toList ++ toRep.toList ++ suf.toList) ≠ []) :
    (mkRuleParts toRep "0" (some pre) (some suf) []).replacement = "" ∧
    (mkRuleParts toRep "0" (some pre) (some suf) []).apply
        (String.mk (p ++ (pre.toList ++ toRep.toList ++ suf.toList) ++ q))
      = String.mk (p ++ (pre.toList ++ suf.toList) ++ q) := by
  constructor
  · rfl
  · have hP : (jsStr (mkRuleParts toRep "0" (some pre) (some suf) []).pre
        ++ (mkRuleParts toRep "0" (some pre) (some suf) []).toReplace
        ++ jsStr (mkRuleParts toRep "0" (some pre) (some suf) []).suf).toList
        = pre.toList ++ toRep.toList ++ suf.toList := by
      simp [mkRuleParts, jsStr, String.toList, string_data_append]
    have hR : (jsStr (mkRuleParts toRep "0" (some pre) (some suf) []).pre
        ++ (mkRuleParts toRep "0" (some pre) (some suf) []).replacement
        ++ jsStr (mkRuleParts toRep "0" (some pre) (some suf) []).suf).toList
        = pre.toList ++ suf.toList := by
      simp [mkRuleParts, jsStr, String.toList, string_data_append, removeFirstZero]
    rw [Rule.apply, hP, hR]
    have hmk : (String.mk (p ++ (pre.toList ++ toRep.toList ++ suf.toList) ++ q)).toList
        = p ++ ((pre.toList ++ toRep.toList ++ suf.toList) ++ q) := by
      simp [String.toList, List.append_assoc]
    rw [hmk]
    rw [ruleScan_skip p ((pre.toList ++ toRep.toList ++ suf.toList) ++ q)
      (fun i hi => by
        have := hp i hi
        simpa [List.append_assoc] using this)]
    rw [ruleScan_head hpat q, ruleScan_no_occurrence q hq]
    simp [List.append_assoc]

theorem C7_witness :
    (mkRuleParts "b" "0" (some "a") (some "c") []).replacement = "" ∧
    (mkRuleParts "b" "0" (some "a") (some "c") []).apply
        (String.mk ("x".toList ++ ("a".toList ++ "b".toList ++ "c".toList)
          ++ "y".toList))
      = String.mk ("x".toList ++ ("a".toList ++ "c".toList) ++ "y".toList) :=
  C7_deletion_marker "b" "a" "c" "x".toList "y".toList
    (by decide) (by decide) (by decide)

/-! ## The stepper scanning engines -/

/-- Tokens pushed into `_result`: a matched trie node or a literal string (a
single passthrough character or a `#word#` chunk). -/
inductive Tok where
  | node (n : CharNode) : Tok
  | str (s : String) : Tok

/-- The `get resultRaw` view of one token: word plus all phonetics for a
matched node, the literal text otherwise. -/
inductive Obs where
  | entry (word : Option String) (phonetics : List String) : Obs
  | lit (s : String) : Obs
deriving DecidableEq

def Tok.obs : Tok → Obs
  | .node n => .entry n.word n.phonetics
  | .str s => .lit s

/-- `get resultRaw` over the whole result list. -/
def resultRaw (toks : List Tok) : List Obs := toks.map Tok.obs

/-- `this._text[i]` for an index that the loop keeps in range. -/
def charAt (t : List Char) (i : Nat) : Char := t.getD i ' '

/-- `this.isLetter(this._text[i])`: an out-of-range JS index yields
`undefined`, and `/\p{L}/u.test(undefined)` coerces the argument to the
string `"undefined"`, which contains letters, hence `true`. -/
def isLetterAt (t : List Char) (i : Nat) : Bool :=
  match t.get? i with
  | some c => jsIsLetter c
  | none => true

/-- `this.isLetter(this._text[this._cursor - 1])`: at cursor 0 the JS index
is `-1`, again `undefined`, hence `true`. -/
def prevIsLetter (t : List Char) (cursor : Nat) : Bool :=
  if cursor = 0 then true else isLetterAt t (cursor - 1)

/-- JS truthiness of `node.word` (`null` and the empty string are falsy). -/
def wordTruthy (n : CharNode) : Bool :=
  match n.word with
  | none => false
  | some w => w != ""

/-- Transient state of `TrieWordStepper.run` (`_text` is passed separately
and never changes during a word-stepper run). -/
structure WState where
  cursor : Nat
  currentLevel : Level
  currentWord : String
  lastNode : Option CharNode
  lastResultCursor : Option Nat
  foundChars : Bool
  lastAdded : Option Nat
  result : List Tok

/-- The trie-descent branch of `TrieWordStepper.run`: the character continues
the trie path and (a match is in progress or the previous character is not a
letter); the node becomes the candidate when it terminates a word and the
following character is not a letter. -/
def wsAdvance (t : List Char) (s : WState) (node : CharNode) : WState :=
  if wordTruthy node && !(isLetterAt t (s.cursor + 1)) then
    WState.mk (s.cursor + 1) node.next s.currentWord (some node) (some s.cursor)
      true s.lastAdded s.result
  else
    WState.mk (s.cursor + 1) node.next s.currentWord s.lastNode s.lastResultCursor
      true s.lastAdded s.result

/-- The backtrack branch: emit the recorded candidate, rewind the cursor to
just past the candidate's recorded position, remember the emission point and
`reset()` (root level, no candidate, `_foundChars = false`; the stale
`_lastResultCursor` is kept, exactly as `reset()` does). -/
def wsBacktrack (root : Level) (s : WState) (n : CharNode) : WState :=
  WState.mk (s.lastResultCursor.getD 0 + 1) root s.currentWord none
    s.lastResultCursor false (some (s.lastResultCursor.getD 0 + 1))
    (s.result ++ [Tok.node n])

/-- One index of the unmatched-span loop of `TrieWordStepper.run`:
non-letters pass through literally; letters accumulate into `_currentWord`,
which is flushed as `#word#` (after optional delegation to the orthography
stepper) when the following character is not a letter. -/
def wsEmitChar (orth : Option (String → String)) (t : List Char) (i : Nat)
    (acc : List Tok × String) : List Tok × String :=
  let c := charAt t i
  if !(jsIsLetter c) then
    (acc.1 ++ [Tok.str (String.singleton c)], acc.2)
  else
    let cw := acc.2.push c
    if !(isLetterAt t (i + 1)) then
      let w :=
        match orth with
        | some f => f cw
        | none => cw
      (acc.1 ++ [Tok.str ("#" ++ w ++ "#")], "")
    else
      (acc.1, cw)

/-- The literal branch: run the span loop from `_lastAddedCursor` to the
cursor inclusive (a still-`undefined` `_lastAddedCursor` makes the JS
`for (let i = undefined; i <= cursor; …)` loop run zero times), then record
the new emission point, advance and `reset()`. -/
def wsLiteral (orth : Option (String → String)) (root : Level) (t : List Char)
    (s : WState) : WState :=
  let idxs :=
    match s.lastAdded with
    | none => []
    | some a => List.range' a (s.cursor + 1 - a)
  let acc := idxs.foldl (fun acc i => wsEmitChar orth t i acc)
    (s.result, s.currentWord)
  WState.mk (s.cursor + 1) root acc.2 none s.lastResultCursor false
    (some (s.cursor + 1)) acc.1

/-- One iteration of the `while` loop of `TrieWordStepper.run`. -/
def wsStep (orth : Option (String → String)) (root : Level) (t : List Char)
    (s : WState) : WState :=
  match lvLookup s.currentLevel (charAt t s.cursor) with
  | some node =>
      if s.foundChars || !(prevIsLetter t s.cursor) then wsAdvance t s node
      else
        match s.lastNode with
        | some n => wsBacktrack root s n
        | none => wsLiteral orth root t s
  | none =>
      match s.lastNode with
      | some n => wsBacktrack root s n
      | none => wsLiteral orth root t s

/-- The `while (this._cursor < this._text.length)` loop, fuelled; `wsRun`
supplies a fuel bound established sufficient by the termination theorem. -/
def wsRunFuel (orth : Option (String → String)) (root : Level) (t : List Char) :
    Nat → WState → WState
  | 0, s => s
  | fuel + 1, s =>
      if s.cursor < t.length then wsRunFuel orth root t fuel (wsStep orth root t s)
      else s

/-- The state at the start of `run()` after `clear()`: cursor 0, empty
result, `_currentLevel` set to the root level. -/
def wsInit (root : Level) : WState :=
  WState.mk 0 root "" none none false none []

/-- `TrieWordStepper.run()` on the character buffer `t`. -/
def wsRun (orth : Option (String → String)) (root : Level) (t : List Char) :
    WState :=
  wsRunFuel orth root t ((t.length + 1) * (t.length + 2)) (wsInit root)

/-! ## Termination of the scan loops -/

/-- The pending candidate position of a state: `some r` exactly when
`_lastNodeWithResult` is set, with `r` the recorded `_lastResultCursor`. -/
def lrView (s : WState) : Option Nat :=
  match s.lastNode with
  | some _ => some (s.lastResultCursor.getD 0)
  | none => none

/-- The backtrack anchor: one past the pending candidate (capped one past the
cursor), or one past the cursor when no candidate is pending. -/
def anchorOf (cursor : Nat) : Option Nat → Nat
  | some r => min (r + 1) (cursor + 1)
  | none => cursor + 1

/-- Termination measure of the scan loops: lexicographic in (remaining text
after the anchor, remaining text after the cursor). -/
def muOf (L cursor : Nat) (lr : Option Nat) : Nat :=
  (L - anchorOf cursor lr) * (L + 1) + (L - cursor)

theorem mu_lt_right {L a a' c c' : Nat} (h1 : L - a' ≤ L - a)
    (h2 : L - c' < L - c) :
    (L - a') * (L + 1) + (L - c') < (L - a) * (L + 1) + (L - c) := by
  have := Nat.mul_le_mul_right (L + 1) h1
  omega

theorem mu_lt_left {L a a' c c' : Nat} (h : L - a' < L - a) :
    (L - a') * (L + 1) + (L - c') < (L - a) * (L + 1) + (L - c) := by
  have h1 : L - c' ≤ L := Nat.sub_le _ _
  have h2 : (L - a') + 1 ≤ L - a := h
  have h3 : ((L - a') + 1) * (L + 1) ≤ (L - a) * (L + 1) :=
    Nat.mul_le_mul_right (L + 1) h2
  have h4 : ((L - a') + 1) * (L + 1) = (L - a') * (L + 1) + (L + 1) :=
    Nat.succ_mul _ _
  omega

/-- Advancing the cursor by one while the anchor does not move backwards
shrinks the measure. -/
theorem mu_advance {L c : Nat} {lr lr' : Option Nat} (hc : c < L)
    (h : anchorOf c lr ≤ anchorOf (c + 1) lr') :
    muOf L (c + 1) lr' < muOf L c lr := by
  simp only [muOf]
  exact mu_lt_right (by omega) (by omega)

/-- The backtrack shrinks the measure: the anchor strictly advances. -/
theorem mu_backtrack {L c r : Nat} (hc : c < L) :
    muOf L (r + 1) none < muOf L c (some r) := by
  simp only [muOf, anchorOf]
  have h1 : min (r + 1) (c + 1) ≤ c + 1 := Nat.min_le_right _ _
  have h2 : min (r + 1) (c + 1) ≤ r + 1 := Nat.min_le_left _ _
  by_cases hA : min (r + 1) (c + 1) < L
  · exact mu_lt_left (by omega)
  · exact mu_lt_right (by omega) (by omega)

theorem anchorOf_le_succ (c : Nat) (lr : Option Nat) :
    anchorOf c lr ≤ anchorOf (c + 1) lr := by
  cases lr <;> simp only [anchorOf] <;> omega

theorem anchorOf_le_record (c : Nat) (lr : Option Nat) :
    anchorOf c lr ≤ anchorOf (c + 1) (some c) := by
  cases lr <;> simp only [anchorOf] <;> omega

/-- Each loop iteration of the word stepper shrinks the measure. -/
theorem wsStep_mu (orth : Option (String → String)) (root : Level)
    (t : List Char) (s : WState) (h : s.cursor < t.length) :
    muOf t.length (wsStep orth root t s).cursor (lrView (wsStep orth root t s))
      < muOf t.length s.cursor (lrView s) := by
  unfold wsStep
  cases hl : lvLookup s.currentLevel (charAt t s.cursor) with
  | some node =>
      dsimp only
      by_cases hb : (s.foundChars || !(prevIsLetter t s.cursor)) = true
      · rw [if_pos hb]
        unfold wsAdvance
        by_cases hr : (wordTruthy node && !(isLetterAt t (s.cursor + 1))) = true
        · rw [if_pos hr]
          exact mu_advance h (by
            simpa [lrView] using anchorOf_le_record s.cursor (lrView s))
        · rw [if_neg hr]
          exact mu_advance h (by
            cases hn : s.lastNode <;>
              simpa [lrView, hn] using anchorOf_le_succ s.cursor (lrView s))
      · rw [if_neg hb]
        cases hn : s.lastNode with
        | some n =>
            dsimp only
            have := mu_backtrack (r := s.lastResultCursor.getD 0) h
            simpa [wsBacktrack, lrView, hn] using this
        | none =>
            dsimp only
            exact mu_advance h (by simp [wsLiteral, lrView, hn, anchorOf])
  | none =>
      dsimp only
      cases hn : s.lastNode with
      | some n =>
          dsimp only
          have := mu_backtrack (r := s.lastResultCursor.getD 0) h
          simpa [wsBacktrack, lrView, hn] using this
      | none =>
          dsimp only
          exact mu_advance h (by simp [wsLiteral, lrView, hn, anchorOf])

/-- Enough fuel finishes the word-stepper loop: the final cursor has reached
the end of the text. -/
theorem wsRunFuel_done (orth : Option (String → String)) (root : Level)
    (t : List Char) :
    ∀ (fuel : Nat) (s : WState), muOf t.length s.cursor (lrView s) < fuel →
      ¬ (wsRunFuel orth root t fuel s).cursor < t.length := by
  intro fuel
  induction fuel with
  | zero => intro s h; omega
  | succ fuel ih =>
      intro s h
      rw [wsRunFuel]
      by_cases hc : s.cursor < t.length
      · rw [if_pos hc]
        exact ih _ (by have := wsStep_mu orth root t s hc; omega)
      · rw [if_neg hc]
        exact hc

theorem muOf_lt_bound (L c : Nat) (lr : Option Nat) :
    muOf L c lr < (L + 1) * (L + 2) := by
  have h1 : L - anchorOf c lr ≤ L := Nat.sub_le _ _
  have h2 : (L - anchorOf c lr) * (L + 1) ≤ L * (L + 1) :=
    Nat.mul_le_mul_right (L + 1) h1
  have h3 : (L + 1) * (L + 2) = L * (L + 1) + 2 * L + 2 := by ring
  simp only [muOf]
  omega

/-- Generic lookup in a JS object keyed by strings (rule-processor maps,
loaded dictionaries). -/
def lookupAssoc {α : Type} : List (String × α) → String → Option α
  | [], _ => none
  | (k, v) :: r, s => if k = s then some v else lookupAssoc r s

/-- Generic key assignment in a JS object keyed by strings. -/
def updateAssoc {α : Type} : List (String × α) → String → α → List (String × α)
  | [], k, v => [(k, v)]
  | (k0, v0) :: r, k, v =>
      if k0 = k then (k, v) :: r else (k0, v0) :: updateAssoc r k v

/-- The JS `key in object` test. -/
def hasKeyAssoc {α : Type} (m : List (String × α)) (k : String) : Bool :=
  (lookupAssoc m k).isSome

/-- Transient state of `TrieOrthographyStepper.run` (no `_currentWord`, no
`_foundChars` use: the orthography scan has no word-boundary gating). -/
structure OState where
  cursor : Nat
  currentLevel : Level
  lastNode : Option CharNode
  lastResultCursor : Option Nat
  lastAdded : Option Nat
  result : List Tok

/-- The trie-descent branch of `TrieOrthographyStepper.run`: ungated (`char
in this._currentLevel` only); the node becomes the candidate whenever it
terminates a word, with no following-letter check. -/
def osAdvance (s : OState) (node : CharNode) : OState :=
  if wordTruthy node then
    OState.mk (s.cursor + 1) node.next (some node) (some s.cursor)
      s.lastAdded s.result
  else
    OState.mk (s.cursor + 1) node.next s.lastNode s.lastResultCursor
      s.lastAdded s.result

/-- The backtrack branch, identical to the word stepper's. -/
def osBacktrack (root : Level) (s : OState) (n : CharNode) : OState :=
  OState.mk (s.lastResultCursor.getD 0 + 1) root none s.lastResultCursor
    (some (s.lastResultCursor.getD 0 + 1)) (s.result ++ [Tok.node n])

/-- The literal branch of the orthography stepper: every character of the
span from `_lastAddedCursor || 0` (note the `|| 0` default, unlike the word
stepper) to the cursor is pushed literally. -/
def osLiteral (root : Level) (t : List Char) (s : OState) : OState :=
  let a := s.lastAdded.getD 0
  let pushed := (List.range' a (s.cursor + 1 - a)).map
    (fun i => Tok.str (String.singleton (charAt t i)))
  OState.mk (s.cursor + 1) root none s.lastResultCursor
    (some (s.cursor + 1)) (s.result ++ pushed)

/-- One iteration of the `while` loop of `TrieOrthographyStepper.run`. -/
def osStep (root : Level) (t : List Char) (s : OState) : OState :=
  match lvLookup s.currentLevel (charAt t s.cursor) with
  | some node => osAdvance s node
  | none =>
      match s.lastNode with
      | some n => osBacktrack root s n
      | none => osLiteral root t s

def osRunFuel (root : Level) (t : List Char) : Nat → OState → OState
  | 0, s => s
  | fuel + 1, s =>
      if s.cursor < t.length then osRunFuel root t fuel (osStep root t s)
      else s

def osInit (root : Level) : OState :=
  OState.mk 0 root none none none []

/-- `TrieOrthographyStepper.run()` first rewrites `_text` through the
language's preprocessor when one is registered for the current language code
(the loop then scans the rewritten text). -/
def osEffText (rulePre : List (String × RuleProcessor)) (lang : Option String)
    (text : String) : String :=
  match lang with
  | some l =>
      match lookupAssoc rulePre l with
      | some rp => rp.process text
      | none => text
  | none => text

/-- `TrieOrthographyStepper.run()` on raw text: preprocessing, then the
fuelled scan loop. -/
def osRun (rulePre : List (String × RuleProcessor)) (lang : Option String)
    (root : Level) (text : String) : OState :=
  let t := (osEffText rulePre lang text).toList
  osRunFuel root t ((t.length + 1) * (t.length + 2)) (osInit root)

def lrViewO (s : OState) : Option Nat :=
  match s.lastNode with
  | some _ => some (s.lastResultCursor.getD 0)
  | none => none

/-- Each loop iteration of the orthography stepper shrinks the measure. -/
theorem osStep_mu (root : Level) (t : List Char) (s : OState)
    (h : s.cursor < t.length) :
    muOf t.length (osStep root t s).cursor (lrViewO (osStep root t s))
      < muOf t.length s.cursor (lrViewO s) := by
  unfold osStep
  cases hl : lvLookup s.currentLevel (charAt t s.cursor) with
  | some node =>
      dsimp only
      unfold osAdvance
      by_cases hr : wordTruthy node = true
      · rw [if_pos hr]
        exact mu_advance h (by
          simpa [lrViewO] using anchorOf_le_record s.cursor (lrViewO s))
      · rw [if_neg hr]
        exact mu_advance h (by
          cases hn : s.lastNode <;>
            simpa [lrViewO, hn] using anchorOf_le_succ s.cursor (lrViewO s))
  | none =>
      dsimp only
      cases hn : s.lastNode with
      | some n =>
          dsimp only
          have := mu_backtrack (r := s.lastResultCursor.getD 0) h
          simpa [osBacktrack, lrViewO, hn] using this
      | none =>
          dsimp only
          exact mu_advance h (by simp [osLiteral, lrViewO, hn, anchorOf])

theorem osRunFuel_done (root : Level) (t : List Char) :
    ∀ (fuel : Nat) (s : OState), muOf t.length s.cursor (lrViewO s) < fuel →
      ¬ (osRunFuel root t fuel s).cursor < t.length := by
  intro fuel
  induction fuel with
  | zero => intro s h; omega
  | succ fuel ih =>
      intro s h
      rw [osRunFuel]
      by_cases hc : s.cursor < t.length
      · rw [if_pos hc]
        exact ih _ (by have := osStep_mu root t s hc; omega)
      · rw [if_neg hc]
        exact hc

/-- C9: both scan loops terminate for every input text and every loaded
dictionary, despite the backtrack moving the cursor back to
`lastResultCursor + 1`: with the fuel bound `(len+1)*(len+2)` — a bound
depending only on the input length — the word stepper's and the orthography
stepper's runs both finish with the cursor at or past the end of the
(possibly preprocessor-rewritten) text, so the `while` loop exits. -/
theorem C9_runs_terminate :
    ∀ (orth : Option (String → String)) (root : Level) (t : List Char)
      (rulePre : List (String × RuleProcessor)) (lang : Option String)
      (text : String),
      (wsRun orth root t).cursor ≥ t.length ∧
      (osRun rulePre lang root text).cursor
        ≥ (osEffText rulePre lang text).toList.length := by
  intro orth root t rulePre lang text
  constructor
  · have := wsRunFuel_done orth root t ((t.length + 1) * (t.length + 2))
      (wsInit root) (muOf_lt_bound _ _ _)
    simpa [wsRun] using Nat.le_of_not_lt this
  · have := osRunFuel_done root (osEffText rulePre lang text).toList
      (((osEffText rulePre lang text).toList.length + 1) *
        ((osEffText rulePre lang text).toList.length + 2))
      (osInit root) (muOf_lt_bound _ _ _)
    simpa [osRun] using Nat.le_of_not_lt this

/-! ## C1: longest match on a concrete trie -/

/-- A word-stepper dictionary level containing exactly `"cat"` and
`"category"`. -/
def catTrie : Level := addWordL (addWordL [] "cat" "kat") "category" "kataegari"

/-- The text normalisation of the `text` setter / `translateText`:
lowercase plus one boundary space on each side. -/
def padText (s : String) : String := " " ++ jsToLower s ++ " "

/-- The token stream produced by a full word-stepper run over raw text. -/
def wsTranslateToks (orth : Option (String → String)) (root : Level)
    (raw : String) : List Tok :=
  (wsRun orth root (padText raw).toList).result

/-- C1: on the trie containing exactly `"cat"` and `"category"`, scanning
`"the cat sat"` emits `"cat"` as a dictionary-match token and handles
`"sat"` (and `"the"`) as unmatched `#…#` words, and scanning `"category"`
emits the full `"category"` entry, not the shorter `"cat"`.  The third
conjunct exhibits the backtrack: at the state reached after eight steps of
the `"the cat sat"` scan the candidate `"cat"` is recorded at cursor 7 and
the walk is at cursor 8 on a failing character; the next step emits the
candidate, rewinds the cursor to just past the recorded position (7 + 1) and
restarts the trie walk from the root level. -/
theorem C1_longest_match_scan :
    resultRaw (wsTranslateToks none catTrie "the cat sat")
      = [Obs.lit "#the#", Obs.lit " ", Obs.entry (some "cat") ["kat"],
         Obs.lit " ", Obs.lit "#sat#", Obs.lit " "] ∧
    resultRaw (wsTranslateToks none catTrie "category")
      = [Obs.entry (some "category") ["kataegari"], Obs.lit " "] ∧
    (wsRunFuel none catTrie (padText "the cat sat").toList 8
        (wsInit catTrie)).cursor = 8 ∧
    (wsRunFuel none catTrie (padText "the cat sat").toList 8
        (wsInit catTrie)).lastResultCursor = some 7 ∧
    (wsStep none catTrie (padText "the cat sat").toList
        (wsRunFuel none catTrie (padText "the cat sat").toList 8
          (wsInit catTrie))).cursor = 7 + 1 ∧
    (wsStep none catTrie (padText "the cat sat").toList
        (wsRunFuel none catTrie (padText "the cat sat").toList 8
          (wsInit catTrie))).currentLevel = catTrie ∧
    resultRaw (wsStep none catTrie (padText "the cat sat").toList
        (wsRunFuel none catTrie (padText "the cat sat").toList 8
          (wsInit catTrie))).result
      = resultRaw (wsRunFuel none catTrie (padText "the cat sat").toList 8
          (wsInit catTrie)).result ++ [Obs.entry (some "cat") ["kat"]] :=
  ⟨by decide, by decide, by decide, by decide, by decide, rfl, by decide⟩

/-! ## Dictionary and rule-file loading -/

/-- `split(/\r?\n/)`: split on `'\n'`, stripping one trailing `'\r'` per
chunk (a lone final `'\r'` unaccompanied by a newline, absent from the
resource files, is also stripped here). -/
def splitLines (s : String) : List String :=
  (splitOnL s "\n").map (fun l =>
    match l.data.reverse with
    | '\r' :: r => String.mk r.reverse
    | _ => l)

/-- One dictionary line: `const [word, phonetic] = line.split(/\t/)`; lines
with a missing or empty word or phonetic are skipped
(`if (!(word && phonetic)) continue`), otherwise
`addWord(word.toLowerCase(), phonetic)`. -/
def parseDictLine (lvl : Level) (line : String) : Level :=
  match splitOnL line "\t" with
  | w :: p :: _ => if w ≠ "" ∧ p ≠ "" then addWordL lvl (jsToLower w) p else lvl
  | _ => lvl

/-- The insertions performed by `loadDictionary` over a file body, starting
from the empty level just assigned to the dictionary's key. -/
def parseDictLines (content : String) : Level :=
  (splitLines content).foldl parseDictLine []

/-- The dictionary-selection state of a `Trie`: `_currentLanguageCode` and
`_loadedDictionaries`. -/
structure TrieSt where
  currentLanguageCode : Option String
  dicts : List (String × Level)

/-- `Trie.hasDictionary(d)`:
`Object.keys(this._loadedDictionaries).includes(d)`. -/
def hasDictionary (st : TrieSt) (d : String) : Bool :=
  hasKeyAssoc st.dicts d

/-- `TrieWordStepper.loadDictionary(dictionary)` as a function of the
`loadFile` outcome (`none` models a missing or unreadable resource file).
The source sets `_currentLanguageCode`, returns early when the dictionary is
cached, registers an empty level, then calls `response.split(/\r?\n/)` with
NO null guard: a missing dictionary file throws a `TypeError` (modelled as
`.error`), unlike the orthography stepper's loader below. -/
def wsLoadDictionary (response : Option String) (st : TrieSt) (d : String) :
    Except String TrieSt :=
  let st1 := TrieSt.mk (some d) st.dicts
  if hasDictionary st1 d then .ok st1
  else
    match response with
    | none => .error "TypeError: response is null"
    | some content =>
        .ok (TrieSt.mk (some d) (updateAssoc st.dicts d (parseDictLines content)))

/-- `TrieOrthographyStepper.loadDictionary(dictionary)`: same shape, but the
missing-file case degrades to an empty level
(`const lines = response ? response.split(/\r?\n/) : []`). -/
def osLoadDictionary (response : Option String) (st : TrieSt) (d : String) :
    TrieSt :=
  let st1 := TrieSt.mk (some d) st.dicts
  if hasDictionary st1 d then st1
  else
    TrieSt.mk (some d)
      (updateAssoc st.dicts d
        (match response with
         | none => []
         | some content => parseDictLines content))

theorem lookupAssoc_update_self {α : Type} (m : List (String × α)) (k : String)
    (v : α) : lookupAssoc (updateAssoc m k v) k = some v := by
  induction m with
  | nil => simp [updateAssoc, lookupAssoc]
  | cons kv r ih =>
      obtain ⟨k0, v0⟩ := kv
      by_cases h : k0 = k <;> simp [updateAssoc, lookupAssoc, h, ih]

/-- C5: dictionary loading is idempotent and cached per identifier: once a
`loadDictionary(d)` call has succeeded, any further `loadDictionary(d)` call
— whatever the resource file would now contain — returns the state
unchanged and performs no insertions. -/
theorem C5_loadDictionary_idempotent :
    ∀ (st : TrieSt) (d : String) (c1 c2 : Option String) (st' : TrieSt),
      wsLoadDictionary c1 st d = .ok st' →
      wsLoadDictionary c2 st' d = .ok st' := by
  intro st d c1 c2 st' h1
  unfold wsLoadDictionary at h1 ⊢
  by_cases hd : hasDictionary (TrieSt.mk (some d) st.dicts) d = true
  · rw [if_pos hd] at h1
    simp only [Except.ok.injEq] at h1
    subst h1
    rw [if_pos hd]
  · rw [if_neg hd] at h1
    cases c1 with
    | none => cases h1
    | some content =>
        simp only [Except.ok.injEq] at h1
        subst h1
        have hk : hasDictionary (TrieSt.mk (some d)
            (TrieSt.mk (some d) (updateAssoc st.dicts d (parseDictLines content))).dicts)
            d = true := by
          simp [hasDictionary, hasKeyAssoc, lookupAssoc_update_self]
        rw [if_pos hk]

/-- Extract the state of a successful load (used to name the loaded state in
the idempotence witness). -/
def exOk (e : Except String TrieSt) : TrieSt :=
  match e with
  | .ok s => s
  | .error _ => TrieSt.mk none []

theorem C5_witness :
    wsLoadDictionary (some "b\ty")
        (exOk (wsLoadDictionary (some "a\tx") (TrieSt.mk none []) "de")) "de"
      = .ok (exOk (wsLoadDictionary (some "a\tx") (TrieSt.mk none []) "de")) :=
  C5_loadDictionary_idempotent (TrieSt.mk none []) "de" (some "a\tx")
    (some "b\ty") _ rfl

/-- `\s` inside a resource line, modelled as spaces and tabs (no newlines
occur within a line). -/
def isWsChar (c : Char) : Bool := c = ' ' || c = '\t'

/-- The character-group matches of `loadRuleFile`
(`/^::\p{L}+?::\s+?=\s+?[\p{L}|]+/gmu`), per line: `::name::`, whitespace,
`=`, whitespace, the group's alternatives (letters and `|`).  Returns the
key with its `::` delimiters (the JS key text) and the value. -/
def parseCharGroupLine (line : String) : Option (String × String) :=
  match line.data with
  | ':' :: ':' :: rest =>
      let name := rest.takeWhile jsIsLetter
      match rest.dropWhile jsIsLetter with
      | ':' :: ':' :: r2 =>
          if name = [] then none
          else if r2.takeWhile isWsChar = [] then none
          else
            match r2.dropWhile isWsChar with
            | '=' :: r4 =>
                if r4.takeWhile isWsChar = [] then none
                else
                  let v := (r4.dropWhile isWsChar).takeWhile
                    (fun c => jsIsLetter c || c = '|')
                  if v = [] then none
                  else some (String.mk ((':' :: ':' :: name) ++ [':', ':']),
                    String.mk v)
            | _ => none
      | _ => none
  | _ => none

def isTok1Char (c : Char) : Bool := jsIsLetter c || c = '[' || c = ']' || c = '|'

def isTok2Char (c : Char) : Bool :=
  jsIsLetter c || c = '[' || c = ']' || c = '<' || c = '>' || c = '|' || c = '0'

/-- The rule-line recogniser of `loadRuleFile`
(`/^[\p{L}\[\]|]+?\s+->\s+[\p{L}\p{M}\[\]<>|0]+\s+\/\s+.*?$/gmu`): pattern
token, whitespace, `->`, whitespace, replacement token, whitespace, `/`,
whitespace, then anything up to the end of the line (combining marks
`\p{M}` lie outside the ASCII model). -/
def lineIsRule (line : String) : Bool :=
  let l := line.data
  if l.takeWhile isTok1Char = [] then false
  else
    let r1 := l.dropWhile isTok1Char
    if r1.takeWhile isWsChar = [] then false
    else
      match r1.dropWhile isWsChar with
      | '-' :: '>' :: r3 =>
          if r3.takeWhile isWsChar = [] then false
          else
            let r4 := r3.dropWhile isWsChar
            if r4.takeWhile isTok2Char = [] then false
            else
              let r5 := r4.dropWhile isTok2Char
              if r5.takeWhile isWsChar = [] then false
              else
                match r5.dropWhile isWsChar with
                | '/' :: r7 => !(r7.takeWhile isWsChar).isEmpty
                | _ => false
      | _ => false

/-- The `Rule` constructor's three raw splits of a rule line
(`/\s+\/\s+/`, `/\s+->\s+/`, `/\s?_\s?/`), modelled with the single-space
separator forms used throughout the rule files.  Pieces JS leaves
`undefined` are `none` (prefix/suffix) — lines reaching the constructor
matched the recogniser, which guarantees the `->` and `/` parts. -/
def parseRule (line : String) (charGroups : List (String × String)) : Rule :=
  let a := splitOnL line " / "
  let b := splitOnL (a.headD "") " -> "
  let m := splitOnL ((a.drop 1).headD "") " _ "
  mkRuleParts (b.headD "") ((b.drop 1).headD "") m.head? (m.drop 1).head?
    charGroups

/-- `RuleProcessor.loadRuleFile` as a function of the `loadFile` outcome: a
missing file returns early, leaving `_rules` as the initial empty list; a
present file extracts the character groups (the reduce's later entries
overriding earlier equal keys) and compiles every matched rule line. -/
def loadRuleFile (response : Option String) : RuleProcessor :=
  match response with
  | none => RuleProcessor.mk []
  | some content =>
      let lines := splitLines content
      let charGroups := lines.foldl
        (fun acc l =>
          match parseCharGroupLine l with
          | some kv => updateAssoc acc kv.1 kv.2
          | none => acc) []
      RuleProcessor.mk ((lines.filter lineIsRule).map
        (fun l => parseRule l charGroups))

/-- C4 exhibit: for a missing resource, the orthography stepper's dictionary
loader degrades to an empty level (whose lookups never match: input passes
through literally) and a missing rule file leaves an empty rule list (whose
processing is the identity) — but the word stepper's dictionary loader,
which the claim also covers, throws a `TypeError` instead of degrading
(`response.split(/\r?\n/)` with no null guard), aborting the translation. -/
theorem C4_load_failure_behaviour :
    wsLoadDictionary none (TrieSt.mk none []) "xx"
        = .error "TypeError: response is null" ∧
    osLoadDictionary none (TrieSt.mk none []) "xx"
        = TrieSt.mk (some "xx") [("xx", [])] ∧
    (∀ w : String, findCharNodeL [] w = none) ∧
    (loadRuleFile none).rules = [] ∧
    (∀ w : String, (loadRuleFile none).process w = w) :=
  ⟨rfl, rfl, fun _ => findW_nil_level _, rfl, fun _ => rfl⟩

/-! ## The result getter of the orthography stepper (C10) and SSML (C8) -/

/-- `[...r.phonetics][0]` of a matched node; an empty set gives JS
`undefined`, which `Array.prototype.join` renders as the empty string (the
`pollyResult` path would instead throw on `undefined.replace`; no node with
an empty phonetics set is ever produced by `addWord`). -/
def headPhonD (n : CharNode) : String := (n.phonetics.head?).getD ""

/-- `get result` of the base stepper: first phonetic for matched nodes,
literal text otherwise, joined with `''`. -/
def tokJoin (toks : List Tok) : String :=
  String.join (toks.map (fun tk =>
    match tk with
    | .node n => headPhonD n
    | .str s => s))

/-- The processor registry of a `TrieOrthographyStepper`, as consulted by
its `result` getter. -/
structure OrthProc where
  currentLanguageCode : Option String
  rulePre : List (String × RuleProcessor)
  rulePost : List (String × RuleProcessor)

/-- `addRulePreprocessorForLanguage(code)`: loads the language's
`preprocessor` rule file into a fresh processor stored in the preprocessor
map. -/
def addRulePreprocessorForLanguage (response : Option String) (st : OrthProc)
    (code : String) : OrthProc :=
  OrthProc.mk st.currentLanguageCode
    (updateAssoc st.rulePre code (loadRuleFile response)) st.rulePost

/-- `addRulePostprocessorForLanguage(code)`: loads the language's
`postprocessor` rule file into a fresh processor stored in the postprocessor
map. -/
def addRulePostprocessorForLanguage (response : Option String) (st : OrthProc)
    (code : String) : OrthProc :=
  OrthProc.mk st.currentLanguageCode st.rulePre
    (updateAssoc st.rulePost code (loadRuleFile response))

/-- `get result` of `TrieOrthographyStepper`: joins the tokens, then — iff
the PREprocessor map has an entry for `_currentLanguageCode` — applies the
POSTprocessor map's entry to it; with a preprocessor registered but no
postprocessor, the JS indexes `undefined.process` (a `TypeError`, modelled
as `.error`).  A `null` language code is never a key of the maps. -/
def osResultGet (st : OrthProc) (toks : List Tok) : Except String String :=
  let raw := tokJoin toks
  match st.currentLanguageCode with
  | none => .ok raw
  | some l =>
      if hasKeyAssoc st.rulePre l then
        match lookupAssoc st.rulePost l with
        | some rp => .ok (rp.process raw)
        | none => .error "TypeError: undefined postprocessor"
      else .ok raw

/-- C10: the postprocessor is applied if and only if a PREprocessor is
registered for the current language code — the guard tests the preprocessor
map, then indexes the postprocessor map: with no preprocessor the assembled
result is returned unprocessed even if a postprocessor was just registered;
with a preprocessor but no postprocessor the getter hits the missing entry
(`TypeError`); with both registered the postprocessor's pipeline runs. -/
theorem C10_postprocessor_guard :
    ∀ (st : OrthProc) (l : String) (toks : List Tok) (resp : Option String),
      st.currentLanguageCode = some l →
      (hasKeyAssoc st.rulePre l = false →
        osResultGet st toks = .ok (tokJoin toks)) ∧
      (hasKeyAssoc st.rulePre l = false →
        osResultGet (addRulePostprocessorForLanguage resp st l) toks
          = .ok (tokJoin toks)) ∧
      (hasKeyAssoc st.rulePre l = true → lookupAssoc st.rulePost l = none →
        osResultGet st toks = .error "TypeError: undefined postprocessor") ∧
      (∀ rp, hasKeyAssoc st.rulePre l = true →
        lookupAssoc st.rulePost l = some rp →
        osResultGet st toks = .ok (rp.process (tokJoin toks))) := by
  intro st l toks resp hl
  refine ⟨?_, ?_, ?_, ?_⟩
  · intro h
    simp [osResultGet, hl, h]
  · intro h
    simp [osResultGet, addRulePostprocessorForLanguage, hl, h]
  · intro h hpost
    simp [osResultGet, hl, h, hpost]
  · intro rp h hpost
    simp [osResultGet, hl, h, hpost]

theorem C10_witness :
    osResultGet (OrthProc.mk (some "fr") [] [("fr", RuleProcessor.mk [])])
        [Tok.str "x"] = .ok (tokJoin [Tok.str "x"]) ∧
    osResultGet (OrthProc.mk (some "fr") [("fr", RuleProcessor.mk [])] [])
        [Tok.str "x"] = .error "TypeError: undefined postprocessor" ∧
    osResultGet (OrthProc.mk (some "fr") [("fr", RuleProcessor.mk [])]
        [("fr", RuleProcessor.mk [])]) [Tok.str "x"]
      = .ok ((RuleProcessor.mk []).process (tokJoin [Tok.str "x"])) :=
  ⟨(C10_postprocessor_guard (OrthProc.mk (some "fr") [] [("fr", RuleProcessor.mk [])])
      "fr" [Tok.str "x"] none rfl).1 rfl,
   (C10_postprocessor_guard (OrthProc.mk (some "fr") [("fr", RuleProcessor.mk [])] [])
      "fr" [Tok.str "x"] none rfl).2.2.1 rfl rfl,
   (C10_postprocessor_guard (OrthProc.mk (some "fr") [("fr", RuleProcessor.mk [])]
      [("fr", RuleProcessor.mk [])]) "fr" [Tok.str "x"] none rfl).2.2.2
      (RuleProcessor.mk []) rfl rfl⟩

/-- The single-quote character, used in the SSML attribute delimiters. -/
def sglq : String := String.singleton (Char.ofNat 39)

/-- Global literal replace (the JS `.replace(/pat/ug, rep)` for the literal
patterns of the SSML rendering), fuel-structural so concrete values reduce
in the kernel (the fuel `length + 1` always suffices; patterns are
non-empty). -/
def replaceAllFuel (pat rep : List Char) : Nat → List Char → List Char
  | 0, l => l
  | _ + 1, [] => []
  | fuel + 1, c :: rest =>
      if pat ≠ [] ∧ pat.isPrefixOf (c :: rest) then
        rep ++ replaceAllFuel pat rep fuel ((c :: rest).drop pat.length)
      else
        c :: replaceAllFuel pat rep fuel rest

def jsReplaceAll (s pat rep : String) : String :=
  String.mk (replaceAllFuel pat.data rep.data (s.data.length + 1) s.data)

/-- `escapeSsml`: the five global replaces in source order (note that the
`&quot;` introduced by the first replace would be re-escaped by the `&`
replace; quotes do not occur in the claims' inputs). -/
def escapeSsml (s : String) : String :=
  jsReplaceAll (jsReplaceAll (jsReplaceAll (jsReplaceAll (jsReplaceAll s
    "\"" "&quot;") "&" "&amp;") sglq "&apos;") "<" "") ">" ""

/-- `[...r.phonetics][0].replace('/', '')`: `String.prototype.replace` with
a string pattern replaces only the FIRST occurrence. -/
def removeFirstSlash : List Char → List Char
  | [] => []
  | c :: r => if c = '/' then r else c :: removeFirstSlash r

/-- `get pollyResult`: phoneme elements for matched nodes (first phonetic
with the first `'/'` removed), SSML-escaped literal tokens, joined, then the
newline-to-break replacements, wrapped in the speak/prosody envelope. -/
def pollyResult (prosody : Nat) (toks : List Tok) : String :=
  let body := String.join (toks.map (fun tk =>
    match tk with
    | Tok.node n =>
        "<phoneme alphabet=" ++ sglq ++ "ipa" ++ sglq ++ " ph=" ++ sglq
          ++ String.mk (removeFirstSlash (headPhonD n).data) ++ sglq ++ "/>"
    | Tok.str s => escapeSsml s))
  let body2 := jsReplaceAll (jsReplaceAll body "\n\n" "\r") "\n"
    "<break strength=\"weak\"/>"
  "<speak><prosody rate=\"" ++ toString prosody ++ "%\">" ++ body2
    ++ "</prosody></speak>"

/-- The C8 scenario's result list: one matched token whose first phonetic is
`/kæt/`, followed by the literal characters of `" & friends"` (literals are
pushed one character at a time by the scan). -/
def c8Toks : List Tok :=
  Tok.node (CharNode.mk 't' ["/kæt/"] (some "cat") []) ::
    " & friends".data.map (fun c => Tok.str (String.singleton c))

/-- C8 counterexample: the rendering does NOT strip both slash delimiters —
`'/kæt/'.replace('/', '')` removes only the first one — so the claimed
output with `ph='kæt'` is not produced. -/
theorem C8_counterexample :
    pollyResult 85 c8Toks ≠
      "<speak><prosody rate=\"85%\"><phoneme alphabet=" ++ sglq ++ "ipa" ++ sglq
        ++ " ph=" ++ sglq ++ "kæt" ++ sglq
        ++ "/> &amp; friends</prosody></speak>" := by
  decide

/-- C8 (amended): the ampersand of the trailing literal text is escaped as
`&amp;` and the token renders as a phoneme element with `alphabet='ipa'`,
but `ph` keeps the trailing delimiter: `ph='kæt/'` (only the leading slash
is stripped, since the string-pattern `replace` replaces the first
occurrence only). -/
theorem C8_amended_render :
    pollyResult 85 c8Toks =
      "<speak><prosody rate=\"85%\"><phoneme alphabet=" ++ sglq ++ "ipa" ++ sglq
        ++ " ph=" ++ sglq ++ "kæt/" ++ sglq
        ++ "/> &amp; friends</prosody></speak>" := by
  decide
